import Mathlib

/-!
Verification development for the tythe-time-tracker shift pay-rate
allocation engine.

Embedding conventions:
* An instant is modelled as an integer number of seconds since an
  arbitrary midnight-aligned epoch.  Python datetime
  arithmetic (`clock_out - clock_in`, `.total_seconds() / 3600`) becomes
  exact rational arithmetic on these second counts.
* `datetime.date()` becomes `dateOf` (floor division by 86400, which is
  what Python's `//` computes), `datetime.hour` becomes `hourOf`, and
  `datetime.combine(d, time(h, 0))` becomes `atTime d h`.
* Python `round(x, 2)` is banker's rounding (round half to even); it is
  modelled exactly on rationals by `round2`.
* An absent clock-out (`None`) is `Option.none`.
-/

/-- Round a rational to the nearest integer, ties to the even integer.
This models Python's built-in `round` applied to the scaled quotient. -/
def roundHalfEven (q : ℚ) : ℤ :=
  if q - ⌊q⌋ < 1/2 then ⌊q⌋
  else if 1/2 < q - ⌊q⌋ then ⌊q⌋ + 1
  else if ⌊q⌋ % 2 = 0 then ⌊q⌋ else ⌊q⌋ + 1

/-- Python's `round(x, 2)`: round to two decimal places, ties to even. -/
def round2 (q : ℚ) : ℚ := (roundHalfEven (100 * q) : ℚ) / 100

/-- `datetime.date()` as a day number: floor division by 86400 seconds. -/
def dateOf (t : ℤ) : ℤ := t / 86400

/-- `datetime.hour`: the hour-of-day component, always in `[0, 24)`. -/
def hourOf (t : ℤ) : ℤ := (t % 86400) / 3600

/-- `datetime.combine(date d, time(h, 0))`: the instant at hour `h` of day `d`. -/
def atTime (d h : ℤ) : ℤ := d * 86400 + h * 3600

/-- `export_functions.get_bst_time`: add the fixed +1 hour offset. -/
def get_bst_time (t : ℤ) : ℤ := t + 3600

/-- Elapsed hours between two instants: `(b - a).total_seconds() / 3600`. -/
def elapsedHours (a b : ℤ) : ℚ := ((b - a : ℤ) : ℚ) / 3600

/-- The `{'Standard': _, 'Enhanced': _, 'Supervisor': _}` result dict of the
splitter, i.e. the spec's TimeSplit value. -/
structure TimeSplit where
  standard : ℚ
  enhanced : ℚ
  supervisor : ℚ
deriving DecidableEq, Repr

/-- `export_functions.split_shift_by_rate`, transcribed from the source:
open shift → zeros; supervisor → whole rounded duration in the supervisor
bucket; invalid interval (non-supervisor path) → zeros; otherwise overlap of
the BST-shifted interval with the anchored 19:00–04:00 enhanced window. -/
def split_shift_by_rate (clock_in : ℤ) (clock_out : Option ℤ)
    (is_supervisor : Bool) : TimeSplit :=
  match clock_out with
  | none => ⟨0, 0, 0⟩
  | some co =>
    if is_supervisor then
      ⟨0, 0, round2 (elapsedHours clock_in co)⟩
    else
      let bst_in := get_bst_time clock_in
      let bst_out := get_bst_time co
      if bst_out ≤ bst_in then ⟨0, 0, 0⟩
      else
        let enhanced_start :=
          if hourOf bst_in < 4 then atTime (dateOf bst_in - 1) 19
          else atTime (dateOf bst_in) 19
        let enhanced_end :=
          if hourOf bst_in < 4 then atTime (dateOf bst_in) 4
          else atTime (dateOf bst_in + 1) 4
        let enh_start := max bst_in enhanced_start
        let enh_end := min bst_out enhanced_end
        let enhanced_hours : ℚ :=
          if enh_start < enh_end then max (elapsedHours enh_start enh_end) 0 else 0
        let total_hours := elapsedHours bst_in bst_out
        let standard_hours := total_hours - enhanced_hours
        ⟨round2 standard_hours, round2 enhanced_hours, 0⟩

/-- `TimeTrackingService.calculate_time_split`, transcribed from the source:
no local-time conversion, no rounding; the whole duration goes to a single
bucket selected by the raw clock-in hour. -/
def calculate_time_split (clock_in : ℤ) (clock_out : Option ℤ)
    (is_supervisor : Bool) : TimeSplit :=
  match clock_out with
  | none => ⟨0, 0, 0⟩
  | some co =>
    let total_hours := elapsedHours clock_in co
    if is_supervisor then ⟨0, 0, total_hours⟩
    else if 19 ≤ hourOf clock_in ∨ hourOf clock_in < 4 then
      ⟨0, total_hours, 0⟩
    else
      ⟨total_hours, 0, 0⟩

/-- `TimeUtils.convert_to_bst` on a timezone-aware instant: add the fixed
`BST_OFFSET_HOURS = 1` offset. -/
def convert_to_bst (t : ℤ) : ℤ := t + 3600

/-- `TimeUtils.convert_to_utc` on a timezone-aware instant:
`astimezone(timezone.utc)` changes only the zone label attached to the
value, so the underlying instant is returned unchanged. -/
def convert_to_utc (t : ℤ) : ℤ := t

/-- The start of the enhanced window anchored at the shift's local start,
as the splitter builds it (lines 126–133 of `export_functions.py`): the
previous day's 19:00 for an early-morning start, else the current day's
19:00. -/
def windowStart (bst_in : ℤ) : ℤ :=
  if hourOf bst_in < 4 then atTime (dateOf bst_in - 1) 19 else atTime (dateOf bst_in) 19

/-- The end of the anchored enhanced window: the current day's 04:00 for an
early-morning start, else the next day's 04:00. -/
def windowEnd (bst_in : ℤ) : ℤ :=
  if hourOf bst_in < 4 then atTime (dateOf bst_in) 4 else atTime (dateOf bst_in + 1) 4

/-- The enhanced-hours overlap exactly as the splitter's non-supervisor
branch computes it. -/
def enhHours (bst_in bst_out : ℤ) : ℚ :=
  if max bst_in (windowStart bst_in) < min bst_out (windowEnd bst_in) then
    max (elapsedHours (max bst_in (windowStart bst_in)) (min bst_out (windowEnd bst_in))) 0
  else 0

/-- The enhanced overlap as the spec words it: clamp the shift to the
anchored window and floor the (possibly negative) difference at zero. -/
def spec_enhanced_overlap (bst_in bst_out : ℤ) : ℚ :=
  max (elapsedHours (max bst_in (windowStart bst_in)) (min bst_out (windowEnd bst_in))) 0

/-- One row of the `time_entries` table, in the tuple layout
`(id, employee, clock_in, clock_out, pay_rate_type, created_at)` consumed
by `export_functions.calculate_staff_summary`. -/
structure TimeEntry where
  id : ℕ
  employee : String
  clock_in : ℤ
  clock_out : Option ℤ
  pay_rate_type : String
  created_at : ℤ
deriving DecidableEq, Repr

/-- The per-entry split, with `is_supervisor = (pay_rate_type == 'Supervisor')`
resolved as in `calculate_staff_summary`. -/
def entrySplit (e : TimeEntry) : TimeSplit :=
  split_shift_by_rate e.clock_in e.clock_out (e.pay_rate_type == "Supervisor")

/-- One employee's running totals in the staff summary dict. -/
structure StaffData where
  standard : ℚ
  enhanced : ℚ
  supervisor : ℚ
  total_hours : ℚ
  total_shifts : ℕ
deriving DecidableEq, Repr

/-- The zero-initialised `StaffData` a new employee starts from. -/
def zeroStaffData : StaffData := ⟨0, 0, 0, 0, 0⟩

/-- `sum(split.values())`. -/
def splitTotal (s : TimeSplit) : ℚ := s.standard + s.enhanced + s.supervisor

/-- Fold one shift's split into an employee's running totals: add each
bucket, add the split's total to `total_hours`, count one shift. -/
def addSplit (d : StaffData) (s : TimeSplit) : StaffData :=
  ⟨d.standard + s.standard, d.enhanced + s.enhanced, d.supervisor + s.supervisor,
   d.total_hours + splitTotal s, d.total_shifts + 1⟩

/-- Python-dict update: if the employee has a row, fold into it in place;
otherwise append a fresh zero-initialised row at the end (insertion order). -/
def insertOrUpdate : List (String × StaffData) → String → TimeSplit →
    List (String × StaffData)
  | [], emp, s => [(emp, addSplit zeroStaffData s)]
  | (k, v) :: rest, emp, s =>
    if k = emp then (k, addSplit v s) :: rest
    else (k, v) :: insertOrUpdate rest emp s

/-- One iteration of the `for entry in entries` loop of
`export_functions.calculate_staff_summary`. -/
def aggStep (m : List (String × StaffData)) (e : TimeEntry) :
    List (String × StaffData) :=
  insertOrUpdate m e.employee (entrySplit e)

/-- `export_functions.calculate_staff_summary`: fold every entry into the
(ordered) per-employee summary dict. -/
def calculate_staff_summary (entries : List TimeEntry) :
    List (String × StaffData) :=
  entries.foldl aggStep []

/-- The result of `export_functions.calculate_summary`. -/
structure OverallSummary where
  total_hours : ℚ
  total_shifts : ℕ
  unique_employees : ℕ
  staff_summary : List (String × StaffData)
deriving DecidableEq, Repr

/-- `export_functions.calculate_summary`: overall totals over the staff
summary, with the grand total rounded to 2 decimals. -/
def calculate_summary (entries : List TimeEntry) : OverallSummary :=
  let m := calculate_staff_summary entries
  ⟨round2 ((m.map (fun p => p.2.total_hours)).sum),
   (m.map (fun p => p.2.total_shifts)).sum,
   m.length,
   m⟩

/-- Dict lookup on the ordered summary (`staff_summary[employee]`). -/
def lookupS : List (String × StaffData) → String → Option StaffData
  | [], _ => none
  | (k, v) :: rest, key => if k = key then some v else lookupS rest key

/-- Bump an employee's shift counter without touching any hour field. -/
def incShift (d : StaffData) : StaffData :=
  { d with total_shifts := d.total_shifts + 1 }

/-- `TimeTrackingService.calculate_staff_summary`, transcribed from the
source as a fallible computation: on an empty batch the loop body never
runs and the empty dict is returned, but the first iteration on any
non-empty batch evaluates `StaffSummary(employee_name=..., total_hours=...,
...)`, which does not match the frozen dataclass `StaffSummary` (init
fields `employee`, `standard_hours`, `enhanced_hours`, `supervisor_hours`,
`total_shifts`; `total_hours` is a read-only property), so a `TypeError`
is raised before any summary row is produced. -/
def service_calculate_staff_summary (entries : List TimeEntry) :
    Except String (List (String × StaffData)) :=
  match entries with
  | [] => Except.ok []
  | _ :: _ =>
    Except.error "TypeError: unexpected keyword argument employee_name"

/-- A rational that is an integer number of hundredths, i.e. a possible
output of `round(_, 2)`. -/
def isCent (q : ℚ) : Prop := ∃ n : ℤ, q = (n : ℚ) / 100

/-! ### Rounding lemmas -/

theorem roundHalfEven_intCast (n : ℤ) : roundHalfEven (n : ℚ) = n := by
  unfold roundHalfEven
  rw [Int.floor_intCast]
  norm_num

theorem round2_intCast (n : ℤ) : round2 ((n : ℤ) : ℚ) = n := by
  unfold round2
  rw [show ((100 : ℚ) * n) = ((100 * n : ℤ) : ℚ) by push_cast; ring]
  rw [roundHalfEven_intCast]
  push_cast
  ring

theorem round2_zero : round2 0 = 0 := by
  exact_mod_cast round2_intCast 0

theorem round2_ofNat (n : ℕ) [n.AtLeastTwo] :
    round2 (no_index (OfNat.ofNat n) : ℚ) = OfNat.ofNat n := by
  exact_mod_cast round2_intCast n

theorem round2_one : round2 1 = 1 := by
  exact_mod_cast round2_intCast 1

theorem roundHalfEven_err (q : ℚ) : |((roundHalfEven q : ℤ) : ℚ) - q| ≤ 1/2 := by
  have h0 : ((⌊q⌋ : ℤ) : ℚ) ≤ q := Int.floor_le q
  have h1 : q < ⌊q⌋ + 1 := Int.lt_floor_add_one q
  unfold roundHalfEven
  split_ifs with ha hb hc
  all_goals rw [abs_le]
  all_goals try rw [not_lt] at ha
  all_goals try rw [not_lt] at hb
  all_goals push_cast
  all_goals constructor <;> linarith

theorem round2_err (q : ℚ) : |round2 q - q| ≤ 1/200 := by
  have h := roundHalfEven_err (100 * q)
  unfold round2
  rw [show ((roundHalfEven (100 * q) : ℤ) : ℚ) / 100 - q
      = (((roundHalfEven (100 * q) : ℤ) : ℚ) - 100 * q) / 100 by ring]
  rw [abs_div]
  rw [show |(100 : ℚ)| = 100 by norm_num]
  linarith

theorem round2_conserve (T E : ℚ) : |round2 (T - E) + round2 E - T| ≤ 1/100 := by
  have h1 := round2_err (T - E)
  have h2 := round2_err E
  calc |round2 (T - E) + round2 E - T|
      = |(round2 (T - E) - (T - E)) + (round2 E - E)| := by ring_nf
    _ ≤ |round2 (T - E) - (T - E)| + |round2 E - E| := abs_add _ _
    _ ≤ 1/200 + 1/200 := add_le_add h1 h2
    _ = 1/100 := by norm_num

theorem isCent_round2 (q : ℚ) : isCent (round2 q) :=
  ⟨roundHalfEven (100 * q), rfl⟩

theorem isCent_zero : isCent 0 := ⟨0, by norm_num⟩

theorem isCent_add {a b : ℚ} (ha : isCent a) (hb : isCent b) : isCent (a + b) := by
  obtain ⟨n, hn⟩ := ha
  obtain ⟨m, hm⟩ := hb
  exact ⟨n + m, by rw [hn, hm]; push_cast; ring⟩

theorem round2_eq_self_of_isCent {q : ℚ} (h : isCent q) : round2 q = q := by
  obtain ⟨n, hn⟩ := h
  subst hn
  unfold round2
  rw [show ((100 : ℚ) * ((n : ℚ) / 100)) = ((n : ℤ) : ℚ) by ring]
  rw [roundHalfEven_intCast]

theorem isCent_sum : ∀ l : List ℚ, (∀ q ∈ l, isCent q) → isCent l.sum
  | [], _ => by simpa using isCent_zero
  | q :: l, h => by
    rw [List.sum_cons]
    exact isCent_add (h q (by simp)) (isCent_sum l (fun x hx => h x (by simp [hx])))

/-! ### Splitter evaluation lemmas -/

theorem elapsedHours_bst (a b : ℤ) :
    elapsedHours (get_bst_time a) (get_bst_time b) = elapsedHours a b := by
  unfold elapsedHours get_bst_time
  congr 1
  push_cast
  ring

theorem split_closed_eq (tin tout : ℤ) (h : tin < tout) :
    split_shift_by_rate tin (some tout) false =
      ⟨round2 (elapsedHours (get_bst_time tin) (get_bst_time tout)
          - enhHours (get_bst_time tin) (get_bst_time tout)),
       round2 (enhHours (get_bst_time tin) (get_bst_time tout)), 0⟩ := by
  have hv : ¬ get_bst_time tout ≤ get_bst_time tin := by
    unfold get_bst_time; omega
  simp only [split_shift_by_rate, enhHours, windowStart, windowEnd,
    Bool.false_eq_true, if_false, hv]

theorem enhHours_eq_spec (bi bo : ℤ) :
    enhHours bi bo = spec_enhanced_overlap bi bo := by
  unfold enhHours spec_enhanced_overlap
  split_ifs with h
  · rfl
  · rw [not_lt] at h
    have hle : elapsedHours (max bi (windowStart bi)) (min bo (windowEnd bi)) ≤ 0 := by
      unfold elapsedHours
      apply div_nonpos_iff.mpr
      right
      refine ⟨?_, by norm_num⟩
      exact_mod_cast sub_nonpos.mpr h
    exact (max_eq_right hle).symm

theorem windowEnd_gt (b : ℤ) : b < windowEnd b := by
  unfold windowEnd hourOf dateOf atTime
  split_ifs with h <;> omega

theorem windowStart_lt_windowEnd (b : ℤ) : windowStart b < windowEnd b := by
  unfold windowStart windowEnd atTime
  split_ifs with h <;> omega

/-! ### Claim C1: conservation of hours for closed non-supervisor shifts -/

/-- C1: for every valid closed non-supervisor shift, the returned standard
and enhanced hours sum to the total elapsed hours within the 0.01 rounding
tolerance, and the supervisor bucket is zero. -/
theorem split_conservation (tin tout : ℤ) (h : tin < tout) :
    |(split_shift_by_rate tin (some tout) false).standard
      + (split_shift_by_rate tin (some tout) false).enhanced
      - elapsedHours tin tout| ≤ 1/100
    ∧ (split_shift_by_rate tin (some tout) false).supervisor = 0 := by
  rw [split_closed_eq tin tout h]
  refine ⟨?_, rfl⟩
  dsimp only
  rw [elapsedHours_bst]
  exact round2_conserve _ _

/-- Witness for C1 at the spec's scenario 1 (09:00–17:00 UTC). -/
theorem split_conservation_witness :
    (28800 : ℤ) < 57600 ∧
    (|(split_shift_by_rate 28800 (some 57600) false).standard
      + (split_shift_by_rate 28800 (some 57600) false).enhanced
      - elapsedHours 28800 57600| ≤ 1/100
     ∧ (split_shift_by_rate 28800 (some 57600) false).supervisor = 0) :=
  ⟨by norm_num, split_conservation 28800 57600 (by norm_num)⟩

/-! ### Claim C2: anchoring of the enhanced window -/

/-- C2: for every valid closed non-supervisor shift the splitter's result is
exactly the rounded overlap with the enhanced window anchored at the local
start (previous day's 19:00 → current day's 04:00 when the local start hour
is before 04:00, else current day's 19:00 → next day's 04:00); in particular
a local 23:00 → next-day 06:00 shift yields 5.0 enhanced and 2.0 standard
hours. -/
theorem split_enhanced_window_anchor :
    (∀ tin tout : ℤ, tin < tout →
      split_shift_by_rate tin (some tout) false =
        ⟨round2 (elapsedHours tin tout
            - spec_enhanced_overlap (get_bst_time tin) (get_bst_time tout)),
         round2 (spec_enhanced_overlap (get_bst_time tin) (get_bst_time tout)),
         0⟩)
    ∧ split_shift_by_rate 79200 (some 104400) false = ⟨2, 5, 0⟩ := by
  constructor
  · intro tin tout h
    rw [split_closed_eq tin tout h, enhHours_eq_spec, elapsedHours_bst]
  · have h1 : hourOf 82800 = 23 := by decide
    have h2 : dateOf 82800 = 0 := by decide
    simp only [split_shift_by_rate, get_bst_time, atTime]
    norm_num [h1, h2, elapsedHours, max_def, min_def, round2_ofNat]

/-- Witness for C2's universally quantified part at 09:00–17:00 UTC. -/
theorem split_enhanced_window_anchor_witness :
    split_shift_by_rate 28800 (some 57600) false =
      ⟨round2 (elapsedHours 28800 57600
          - spec_enhanced_overlap (get_bst_time 28800) (get_bst_time 57600)),
       round2 (spec_enhanced_overlap (get_bst_time 28800) (get_bst_time 57600)),
       0⟩ :=
  split_enhanced_window_anchor.1 28800 57600 (by norm_num)

/-! ### Claim C4: supervisor override -/

/-- C4: for every valid closed supervisor shift, the splitter puts the whole
rounded elapsed duration in the supervisor bucket and zero elsewhere; no
time-of-day computation is involved. -/
theorem split_supervisor_override (tin tout : ℤ) (_h : tin < tout) :
    split_shift_by_rate tin (some tout) true =
      ⟨0, 0, round2 (elapsedHours tin tout)⟩ := rfl

/-- Witness for C4 at the spec's scenario 4 (09:00–17:00, supervisor). -/
theorem split_supervisor_override_witness :
    split_shift_by_rate 28800 (some 57600) true = ⟨0, 0, 8⟩ :=
  (split_supervisor_override 28800 57600 (by norm_num)).trans
    (by norm_num [elapsedHours, round2_ofNat])

/-! ### Claim C5: open shifts contribute the zero split -/

/-- C5: splitting an open shift (absent clock-out) returns the zero
TimeSplit for every clock-in instant and every supervisor flag. -/
theorem split_open_shift_zero (tin : ℤ) (b : Bool) :
    split_shift_by_rate tin none b = ⟨0, 0, 0⟩ := rfl

/-! ### Claim C3: half-open boundary convention -/

theorem hourOf_atTime (d h : ℤ) (h0 : 0 ≤ h) (h1 : h < 24) :
    hourOf (atTime d h) = h := by
  unfold hourOf atTime
  omega

theorem dateOf_atTime (d h : ℤ) (h0 : 0 ≤ h) (h1 : h < 24) :
    dateOf (atTime d h) = d := by
  unfold dateOf atTime
  omega

/-- Counterexample to C3 as stated: the closed non-supervisor shift from
local 03:00 to local 19:00 (day 1) ends exactly at local 19:00 yet has
enhanced hours 1, not 0 (its 03:00–04:00 head lies in the anchored
window). -/
theorem split_end_at_1900_counterexample :
    get_bst_time 151200 = atTime (dateOf (get_bst_time 151200)) 19
    ∧ (93600 : ℤ) < 151200
    ∧ (split_shift_by_rate 93600 (some 151200) false).enhanced = 1 := by
  refine ⟨by decide, by norm_num, ?_⟩
  have h1 : hourOf 97200 = 3 := by decide
  have h2 : dateOf 97200 = 1 := by decide
  simp only [split_shift_by_rate, get_bst_time, atTime]
  norm_num [h1, h2, elapsedHours, max_def, min_def, round2_one]

/-- C3 (amended): the enhanced window is half-open: (i) a shift starting at
or after local 04:00 and ending exactly at local 19:00 that same local day
has zero enhanced hours; (ii) a shift starting exactly at local 19:00
accrues enhanced time from that very instant (entirely enhanced up to the
window end); (iii) enhanced accrual stops exactly at the window's 04:00
end: a shift reaching the window end earns the same enhanced hours as the
shift truncated at that instant. -/
theorem split_boundary_convention :
    (∀ tin tout : ℤ, tin < tout → ¬ hourOf (get_bst_time tin) < 4 →
      get_bst_time tout = atTime (dateOf (get_bst_time tin)) 19 →
      (split_shift_by_rate tin (some tout) false).enhanced = 0)
    ∧ (∀ d tin tout : ℤ, get_bst_time tin = atTime d 19 → tin < tout →
      get_bst_time tout ≤ atTime (d + 1) 4 →
      (split_shift_by_rate tin (some tout) false).enhanced
        = round2 (elapsedHours tin tout))
    ∧ (∀ tin tout : ℤ, tin < tout →
      windowEnd (get_bst_time tin) ≤ get_bst_time tout →
      (split_shift_by_rate tin (some tout) false).enhanced
        = (split_shift_by_rate tin
            (some (windowEnd (get_bst_time tin) - 3600)) false).enhanced) := by
  refine ⟨?_, ?_, ?_⟩
  · intro tin tout h hh he
    have hbi : get_bst_time tin < get_bst_time tout := by
      unfold get_bst_time
      omega
    rw [split_closed_eq tin tout h]
    dsimp only
    unfold enhHours
    rw [show windowStart (get_bst_time tin) = get_bst_time tout by
      unfold windowStart
      rw [if_neg hh]
      exact he.symm]
    rw [max_eq_right (le_of_lt hbi)]
    rw [if_neg (by simp [lt_min_iff])]
    exact round2_zero
  · intro d tin tout hin h hle
    have hbi : get_bst_time tin < get_bst_time tout := by
      unfold get_bst_time
      omega
    rw [split_closed_eq tin tout h]
    dsimp only
    have hhour : hourOf (get_bst_time tin) = 19 := by
      rw [hin]
      exact hourOf_atTime d 19 (by norm_num) (by norm_num)
    have hdate : dateOf (get_bst_time tin) = d := by
      rw [hin]
      exact dateOf_atTime d 19 (by norm_num) (by norm_num)
    have hws : windowStart (get_bst_time tin) = get_bst_time tin := by
      unfold windowStart
      rw [if_neg (by omega), hdate]
      exact hin.symm
    have hwe : windowEnd (get_bst_time tin) = atTime (d + 1) 4 := by
      unfold windowEnd
      rw [if_neg (by omega), hdate]
    unfold enhHours
    rw [hws, hwe, max_self, min_eq_left hle, if_pos hbi]
    rw [max_eq_left (by
      unfold elapsedHours
      apply div_nonneg _ (by norm_num)
      exact_mod_cast sub_nonneg.mpr (le_of_lt hbi))]
    rw [elapsedHours_bst]
  · intro tin tout h hwe
    have h2 : tin < windowEnd (get_bst_time tin) - 3600 := by
      have := windowEnd_gt (get_bst_time tin)
      unfold get_bst_time at *
      omega
    rw [split_closed_eq tin tout h, split_closed_eq tin _ h2]
    dsimp only
    congr 1
    rw [show get_bst_time (windowEnd (get_bst_time tin) - 3600)
        = windowEnd (get_bst_time tin) by unfold get_bst_time; ring]
    unfold enhHours
    rw [min_eq_right hwe, min_self]

/-- Witness for C3's three amended parts: 09:00→19:00 local has zero
enhanced hours; 19:00→22:00 local is entirely enhanced; an 19:00→05:00
local shift earns the same enhanced hours as its truncation at 04:00. -/
theorem split_boundary_convention_witness :
    (split_shift_by_rate 28800 (some 64800) false).enhanced = 0
    ∧ (split_shift_by_rate 64800 (some 75600) false).enhanced
        = round2 (elapsedHours 64800 75600)
    ∧ (split_shift_by_rate 64800 (some 100800) false).enhanced
        = (split_shift_by_rate 64800
            (some (windowEnd (get_bst_time 64800) - 3600)) false).enhanced :=
  ⟨split_boundary_convention.1 28800 64800 (by norm_num) (by decide) (by decide),
   split_boundary_convention.2.1 0 64800 75600 (by decide) (by norm_num) (by decide),
   split_boundary_convention.2.2 64800 100800 (by norm_num) (by decide)⟩

/-! ### Claim C6: invalid intervals -/

/-- Counterexample to C6 as stated: with `clock_out` one hour before
`clock_in` and the supervisor flag set, the splitter takes the supervisor
branch before the interval guard and returns -1 supervisor hours instead of
the zero TimeSplit. -/
theorem split_invalid_supervisor_counterexample :
    (0 : ℤ) ≤ 3600
    ∧ split_shift_by_rate 3600 (some 0) true = ⟨0, 0, -1⟩
    ∧ split_shift_by_rate 3600 (some 0) true ≠ ⟨0, 0, 0⟩ := by
  have hval : split_shift_by_rate 3600 (some 0) true = ⟨0, 0, -1⟩ := by
    show (⟨0, 0, round2 (elapsedHours 3600 0)⟩ : TimeSplit) = ⟨0, 0, -1⟩
    have : elapsedHours 3600 0 = ((-1 : ℤ) : ℚ) := by
      unfold elapsedHours
      norm_num
    rw [this, round2_intCast]
    norm_num
  refine ⟨by norm_num, hval, ?_⟩
  rw [hval]
  intro hc
  have := congrArg TimeSplit.supervisor hc
  norm_num at this

/-- C6 (amended): when clock-out is present but not strictly after
clock-in, the non-supervisor path returns the zero TimeSplit; the
supervisor branch, which runs before the interval guard, instead returns
the rounded (non-positive) elapsed duration as supervisor hours. -/
theorem split_invalid_interval (tin tout : ℤ) (h : tout ≤ tin) :
    split_shift_by_rate tin (some tout) false = ⟨0, 0, 0⟩
    ∧ split_shift_by_rate tin (some tout) true
        = ⟨0, 0, round2 (elapsedHours tin tout)⟩ := by
  constructor
  · simp only [split_shift_by_rate, Bool.false_eq_true, if_false]
    rw [if_pos (show get_bst_time tout ≤ get_bst_time tin by
      unfold get_bst_time
      omega)]
  · rfl

/-- Witness for C6 (amended) at a zero-length interval. -/
theorem split_invalid_interval_witness :
    split_shift_by_rate 3600 (some 3600) false = ⟨0, 0, 0⟩
    ∧ split_shift_by_rate 3600 (some 3600) true
        = ⟨0, 0, round2 (elapsedHours 3600 3600)⟩ :=
  split_invalid_interval 3600 3600 (by norm_num)

/-! ### Claim C7: service layer vs export layer -/

/-- Counterexample to C7: for the valid closed non-supervisor shift
15:00→22:00 UTC (local 16:00→23:00), the service layer returns 7 standard
hours while the export splitter returns 3 standard + 4 enhanced hours. -/
theorem service_export_split_counterexample :
    (54000 : ℤ) < 79200
    ∧ calculate_time_split 54000 (some 79200) false = ⟨7, 0, 0⟩
    ∧ split_shift_by_rate 54000 (some 79200) false = ⟨3, 4, 0⟩
    ∧ calculate_time_split 54000 (some 79200) false
        ≠ split_shift_by_rate 54000 (some 79200) false := by
  have hsvc : calculate_time_split 54000 (some 79200) false = ⟨7, 0, 0⟩ := by
    have hh : hourOf 54000 = 15 := by decide
    simp only [calculate_time_split, hh]
    norm_num [elapsedHours]
  have hexp : split_shift_by_rate 54000 (some 79200) false = ⟨3, 4, 0⟩ := by
    have h1 : hourOf 57600 = 16 := by decide
    have h2 : dateOf 57600 = 0 := by decide
    simp only [split_shift_by_rate, get_bst_time, atTime]
    norm_num [h1, h2, elapsedHours, max_def, min_def, round2_ofNat]
  refine ⟨by norm_num, hsvc, hexp, ?_⟩
  rw [hsvc, hexp]
  intro hc
  have := congrArg TimeSplit.standard hc
  norm_num at this

/-- C7 (amended): for every valid closed non-supervisor shift the
service-layer `calculate_time_split` assigns the entire unrounded elapsed
duration to the single bucket selected by the raw (unconverted) clock-in
hour — enhanced when that hour is ≥ 19 or < 4, standard otherwise — and
therefore does not always agree with the export-layer overlap splitter. -/
theorem calculate_time_split_characterization :
    (∀ tin tout : ℤ, tin < tout →
      calculate_time_split tin (some tout) false =
        if 19 ≤ hourOf tin ∨ hourOf tin < 4 then ⟨0, elapsedHours tin tout, 0⟩
        else ⟨elapsedHours tin tout, 0, 0⟩)
    ∧ calculate_time_split 54000 (some 79200) false
        ≠ split_shift_by_rate 54000 (some 79200) false := by
  constructor
  · intro tin tout _h
    rfl
  · have hsvc : calculate_time_split 54000 (some 79200) false = ⟨7, 0, 0⟩ := by
      have hh : hourOf 54000 = 15 := by decide
      simp only [calculate_time_split, hh]
      norm_num [elapsedHours]
    have hexp : split_shift_by_rate 54000 (some 79200) false = ⟨3, 4, 0⟩ := by
      have h1 : hourOf 57600 = 16 := by decide
      have h2 : dateOf 57600 = 0 := by decide
      simp only [split_shift_by_rate, get_bst_time, atTime]
      norm_num [h1, h2, elapsedHours, max_def, min_def, round2_ofNat]
    rw [hsvc, hexp]
    intro hc
    have := congrArg TimeSplit.standard hc
    norm_num at this

/-- Witness for C7 (amended) at the 15:00→22:00 UTC shift. -/
theorem calculate_time_split_characterization_witness :
    calculate_time_split 54000 (some 79200) false =
      if 19 ≤ hourOf 54000 ∨ hourOf 54000 < 4
      then ⟨0, elapsedHours 54000 79200, 0⟩
      else ⟨elapsedHours 54000 79200, 0, 0⟩ :=
  calculate_time_split_characterization.1 54000 79200 (by norm_num)

/-! ### Claim C9: timezone conversion pair -/

/-- Counterexample to C9: the conversion round trip is not the identity —
it adds one hour, because `convert_to_utc` does not subtract the offset. -/
theorem convert_roundtrip_counterexample :
    convert_to_utc (convert_to_bst 0) = 3600 ∧ (3600 : ℤ) ≠ 0 :=
  ⟨rfl, by norm_num⟩

/-- C9 (amended): `convert_to_bst` adds the fixed +1 hour offset and
preserves the total order of instants, but `convert_to_utc` returns a
timezone-aware instant unchanged, so the round trip adds one hour instead
of being the identity. -/
theorem convert_offset_behavior :
    (∀ t : ℤ, convert_to_bst t = t + 3600)
    ∧ (∀ t u : ℤ, t < u ↔ convert_to_bst t < convert_to_bst u)
    ∧ (∀ t : ℤ, convert_to_utc t = t)
    ∧ (∀ t : ℤ, convert_to_utc (convert_to_bst t) = t + 3600) := by
  refine ⟨fun t => rfl, ?_, fun t => rfl, fun t => rfl⟩
  intro t u
  unfold convert_to_bst
  omega

/-! ### Aggregation lemmas -/

theorem entrySplit_open (e : TimeEntry) (h : e.clock_out = none) :
    entrySplit e = ⟨0, 0, 0⟩ := by
  unfold entrySplit
  rw [h]
  rfl

theorem addSplit_zero (d : StaffData) : addSplit d ⟨0, 0, 0⟩ = incShift d := by
  unfold addSplit incShift splitTotal
  simp

theorem lookupS_insertOrUpdate (m : List (String × StaffData)) (emp : String)
    (s : TimeSplit) (k : String) :
    lookupS (insertOrUpdate m emp s) k =
      if k = emp then some (addSplit ((lookupS m k).getD zeroStaffData) s)
      else lookupS m k := by
  induction m with
  | nil =>
    by_cases hk : k = emp
    · subst hk
      simp [insertOrUpdate, lookupS]
    · simp [insertOrUpdate, lookupS, hk, Ne.symm hk]
  | cons p rest ih =>
    obtain ⟨k0, v⟩ := p
    unfold insertOrUpdate
    by_cases h0 : k0 = emp
    · subst h0
      rw [if_pos rfl]
      by_cases hk : k = k0
      · subst hk
        simp [lookupS]
      · simp [lookupS, hk, Ne.symm hk]
    · rw [if_neg h0]
      by_cases hk : k = k0
      · subst hk
        simp [lookupS, h0]
      · simp [lookupS, Ne.symm hk, ih]

/-- Fold a list of splits into an optional running row, initialising the
row on first use exactly as the dict-update loop does. -/
def applyAgg (o : Option StaffData) (ss : List TimeSplit) : Option StaffData :=
  ss.foldl (fun acc s => some (addSplit (acc.getD zeroStaffData) s)) o

/-- Aggregate a list of splits starting from the zero row. -/
def aggSplits (ss : List TimeSplit) : StaffData :=
  ss.foldl addSplit zeroStaffData

/-- The entries of one employee, in order (`emp == employee` filter). -/
def entriesFor (k : String) (l : List TimeEntry) : List TimeEntry :=
  l.filter (fun e => e.employee == k)

theorem applyAgg_some (ss : List TimeSplit) (d : StaffData) :
    applyAgg (some d) ss = some (ss.foldl addSplit d) := by
  induction ss generalizing d with
  | nil => rfl
  | cons s ss ih =>
    unfold applyAgg at *
    simp only [List.foldl_cons, Option.getD_some]
    exact ih (addSplit d s)

theorem applyAgg_none (ss : List TimeSplit) :
    applyAgg none ss = if ss.isEmpty then none else some (aggSplits ss) := by
  cases ss with
  | nil => rfl
  | cons s ss =>
    show applyAgg (some (addSplit zeroStaffData s)) ss = _
    rw [applyAgg_some]
    simp [aggSplits]

theorem lookupS_foldl (l : List TimeEntry) (m : List (String × StaffData))
    (k : String) :
    lookupS (l.foldl aggStep m) k
      = applyAgg (lookupS m k) ((entriesFor k l).map entrySplit) := by
  induction l generalizing m with
  | nil => rfl
  | cons e l ih =>
    rw [List.foldl_cons, ih]
    unfold aggStep
    rw [lookupS_insertOrUpdate]
    by_cases hk : k = e.employee
    · rw [if_pos hk]
      have hfil : entriesFor k (e :: l) = e :: entriesFor k l := by
        simp [entriesFor, List.filter_cons, hk.symm]
      rw [hfil]
      simp only [List.map_cons]
      rfl
    · rw [if_neg hk]
      have hfil : entriesFor k (e :: l) = entriesFor k l := by
        simp [entriesFor, List.filter_cons, Ne.symm hk]
      rw [hfil]

theorem lookupS_calc (l : List TimeEntry) (k : String) :
    lookupS (calculate_staff_summary l) k
      = applyAgg none ((entriesFor k l).map entrySplit) :=
  lookupS_foldl l [] k

/-! ### Claim C8: aggregation over a mixed batch -/

/-- C8: appending an open shift to a batch changes no other employee's
summary row, and for its own employee it only increments the shift counter
(initialising a zero row if absent), contributing zero hours to every
bucket; aggregation is total, so it never fails on mixed batches. -/
theorem staff_summary_open_shift (entries : List TimeEntry) (e : TimeEntry)
    (h : e.clock_out = none) :
    (∀ k, k ≠ e.employee →
      lookupS (calculate_staff_summary (entries ++ [e])) k
        = lookupS (calculate_staff_summary entries) k)
    ∧ lookupS (calculate_staff_summary (entries ++ [e])) e.employee
        = some (incShift
            ((lookupS (calculate_staff_summary entries) e.employee).getD
              zeroStaffData)) := by
  have hstep : calculate_staff_summary (entries ++ [e])
      = insertOrUpdate (calculate_staff_summary entries) e.employee
          (entrySplit e) := by
    unfold calculate_staff_summary
    rw [List.foldl_append]
    rfl
  constructor
  · intro k hk
    rw [hstep, lookupS_insertOrUpdate, if_neg hk]
  · rw [hstep, lookupS_insertOrUpdate, if_pos rfl, entrySplit_open e h,
      addSplit_zero]

/-- An open shift used to witness C8. -/
def openEntry : TimeEntry := ⟨0, "alice", 0, none, "Standard", 0⟩

/-- Witness for C8: a single open shift yields a row with zero hours in
every bucket and one counted shift. -/
theorem staff_summary_open_shift_witness :
    lookupS (calculate_staff_summary [openEntry]) "alice"
      = some ⟨0, 0, 0, 0, 1⟩ := by
  have h := (staff_summary_open_shift [] openEntry rfl).2
  simpa [openEntry, incShift, zeroStaffData, calculate_staff_summary,
    lookupS] using h

/-- C8 (code bug): the service-layer per-staff aggregation raises a
`TypeError` on every non-empty batch — its `StaffSummary` constructor call
does not match the frozen dataclass — while the export-layer aggregation
realises the claimed behaviour: it is total, and appending an open shift
changes no other employee's row and only increments its own employee's
shift counter, contributing zero hours to every bucket. -/
theorem staff_summary_aggregation_code_bug :
    (∀ e : TimeEntry, ∀ rest : List TimeEntry,
      service_calculate_staff_summary (e :: rest)
        = Except.error "TypeError: unexpected keyword argument employee_name")
    ∧ (∀ entries : List TimeEntry, ∀ e : TimeEntry, e.clock_out = none →
      (∀ k, k ≠ e.employee →
        lookupS (calculate_staff_summary (entries ++ [e])) k
          = lookupS (calculate_staff_summary entries) k)
      ∧ lookupS (calculate_staff_summary (entries ++ [e])) e.employee
          = some (incShift
              ((lookupS (calculate_staff_summary entries) e.employee).getD
                zeroStaffData))) :=
  ⟨fun _ _ => rfl, fun entries e h => staff_summary_open_shift entries e h⟩

/-- Witness for C8 at a concrete one-entry batch: the service-layer
aggregation errors, and the export-layer aggregation counts the open shift
with zero hours added. -/
theorem staff_summary_aggregation_code_bug_witness :
    service_calculate_staff_summary [openEntry]
      = Except.error "TypeError: unexpected keyword argument employee_name"
    ∧ lookupS (calculate_staff_summary ([] ++ [openEntry])) openEntry.employee
        = some (incShift
            ((lookupS (calculate_staff_summary []) openEntry.employee).getD
              zeroStaffData)) :=
  ⟨staff_summary_aggregation_code_bug.1 openEntry [],
   (staff_summary_aggregation_code_bug.2 [] openEntry rfl).2⟩

/-! ### Permutation invariance machinery for C10 -/

theorem foldl_addSplit_eq (ss : List TimeSplit) (d : StaffData) :
    ss.foldl addSplit d =
      ⟨d.standard + (ss.map TimeSplit.standard).sum,
       d.enhanced + (ss.map TimeSplit.enhanced).sum,
       d.supervisor + (ss.map TimeSplit.supervisor).sum,
       d.total_hours + (ss.map splitTotal).sum,
       d.total_shifts + ss.length⟩ := by
  induction ss generalizing d with
  | nil => simp
  | cons s ss ih =>
    rw [List.foldl_cons, ih]
    unfold addSplit
    simp only [List.map_cons, List.sum_cons, List.length_cons,
      StaffData.mk.injEq]
    refine ⟨by ring, by ring, by ring, by ring, by omega⟩

theorem aggSplits_perm {ss₁ ss₂ : List TimeSplit} (h : ss₁.Perm ss₂) :
    aggSplits ss₁ = aggSplits ss₂ := by
  unfold aggSplits
  rw [foldl_addSplit_eq, foldl_addSplit_eq]
  simp [(h.map TimeSplit.standard).sum_eq, (h.map TimeSplit.enhanced).sum_eq,
    (h.map TimeSplit.supervisor).sum_eq, (h.map splitTotal).sum_eq,
    h.length_eq]

theorem applyAgg_none_perm {ss₁ ss₂ : List TimeSplit} (h : ss₁.Perm ss₂) :
    applyAgg none ss₁ = applyAgg none ss₂ := by
  rw [applyAgg_none, applyAgg_none]
  have hiso : ss₁.isEmpty = ss₂.isEmpty := by
    rcases ss₁ with _ | ⟨s, ss⟩
    · rcases ss₂ with _ | ⟨t, ts⟩
      · rfl
      · exact absurd h.length_eq (by simp)
    · rcases ss₂ with _ | ⟨t, ts⟩
      · exact absurd h.length_eq (by simp)
      · rfl
  rw [hiso]
  split_ifs with h2
  · rfl
  · rw [aggSplits_perm h]

/-- The grand `total_hours` accumulator over the summary rows. -/
def sumHours (m : List (String × StaffData)) : ℚ :=
  (m.map (fun p => p.2.total_hours)).sum

/-- The grand `total_shifts` accumulator over the summary rows. -/
def sumShifts (m : List (String × StaffData)) : ℕ :=
  (m.map (fun p => p.2.total_shifts)).sum

theorem sumHours_insertOrUpdate (m : List (String × StaffData)) (emp : String)
    (s : TimeSplit) :
    sumHours (insertOrUpdate m emp s) = sumHours m + splitTotal s := by
  induction m with
  | nil => simp [insertOrUpdate, sumHours, addSplit, zeroStaffData]
  | cons p rest ih =>
    obtain ⟨k0, v⟩ := p
    unfold insertOrUpdate
    by_cases h0 : k0 = emp
    · rw [if_pos h0]
      simp only [sumHours, List.map_cons, List.sum_cons, addSplit]
      ring
    · rw [if_neg h0]
      simp only [sumHours, List.map_cons, List.sum_cons] at ih ⊢
      rw [ih]
      ring

theorem sumShifts_insertOrUpdate (m : List (String × StaffData)) (emp : String)
    (s : TimeSplit) :
    sumShifts (insertOrUpdate m emp s) = sumShifts m + 1 := by
  induction m with
  | nil => simp [insertOrUpdate, sumShifts, addSplit, zeroStaffData]
  | cons p rest ih =>
    obtain ⟨k0, v⟩ := p
    unfold insertOrUpdate
    by_cases h0 : k0 = emp
    · rw [if_pos h0]
      simp only [sumShifts, List.map_cons, List.sum_cons, addSplit]
      omega
    · rw [if_neg h0]
      simp only [sumShifts, List.map_cons, List.sum_cons] at ih ⊢
      omega

theorem sumHours_foldl (l : List TimeEntry) (m : List (String × StaffData)) :
    sumHours (l.foldl aggStep m)
      = sumHours m + (l.map (fun e => splitTotal (entrySplit e))).sum := by
  induction l generalizing m with
  | nil => simp
  | cons e l ih =>
    rw [List.foldl_cons, ih]
    unfold aggStep
    rw [sumHours_insertOrUpdate]
    simp only [List.map_cons, List.sum_cons]
    ring

theorem sumShifts_foldl (l : List TimeEntry) (m : List (String × StaffData)) :
    sumShifts (l.foldl aggStep m) = sumShifts m + l.length := by
  induction l generalizing m with
  | nil => simp
  | cons e l ih =>
    rw [List.foldl_cons, ih]
    unfold aggStep
    rw [sumShifts_insertOrUpdate]
    simp only [List.length_cons]
    omega

/-- The dict's key list, in insertion order. -/
def keysOf (m : List (String × StaffData)) : List String := m.map Prod.fst

theorem mem_keysOf_insertOrUpdate (m : List (String × StaffData)) (emp : String)
    (s : TimeSplit) (a : String) :
    a ∈ keysOf (insertOrUpdate m emp s) ↔ a ∈ keysOf m ∨ a = emp := by
  induction m with
  | nil => simp [insertOrUpdate, keysOf]
  | cons p rest ih =>
    obtain ⟨k0, v⟩ := p
    unfold insertOrUpdate
    by_cases h0 : k0 = emp
    · subst h0
      rw [if_pos rfl]
      simp only [keysOf, List.map_cons, List.mem_cons]
      tauto
    · rw [if_neg h0]
      simp only [keysOf, List.map_cons, List.mem_cons] at ih ⊢
      rw [ih]
      tauto

theorem nodup_keysOf_insertOrUpdate (m : List (String × StaffData))
    (emp : String) (s : TimeSplit) (h : (keysOf m).Nodup) :
    (keysOf (insertOrUpdate m emp s)).Nodup := by
  induction m with
  | nil => simp [insertOrUpdate, keysOf]
  | cons p rest ih =>
    obtain ⟨k0, v⟩ := p
    simp only [keysOf, List.map_cons, List.nodup_cons] at h
    unfold insertOrUpdate
    by_cases h0 : k0 = emp
    · rw [if_pos h0]
      simp only [keysOf, List.map_cons, List.nodup_cons]
      exact h
    · rw [if_neg h0]
      simp only [keysOf, List.map_cons, List.nodup_cons]
      refine ⟨?_, ih h.2⟩
      rw [show (insertOrUpdate rest emp s).map Prod.fst
          = keysOf (insertOrUpdate rest emp s) from rfl,
        mem_keysOf_insertOrUpdate]
      push_neg
      exact ⟨h.1, h0⟩

theorem mem_keysOf_foldl (l : List TimeEntry) (m : List (String × StaffData))
    (a : String) :
    a ∈ keysOf (l.foldl aggStep m)
      ↔ a ∈ keysOf m ∨ a ∈ l.map TimeEntry.employee := by
  induction l generalizing m with
  | nil => simp
  | cons e l ih =>
    rw [List.foldl_cons, ih]
    unfold aggStep
    rw [mem_keysOf_insertOrUpdate]
    simp only [List.map_cons, List.mem_cons]
    tauto

theorem nodup_keysOf_foldl (l : List TimeEntry) (m : List (String × StaffData))
    (h : (keysOf m).Nodup) : (keysOf (l.foldl aggStep m)).Nodup := by
  induction l generalizing m with
  | nil => exact h
  | cons e l ih =>
    rw [List.foldl_cons]
    exact ih _ (nodup_keysOf_insertOrUpdate _ _ _ h)

theorem isCent_split_components (tin : ℤ) (oout : Option ℤ) (b : Bool) :
    isCent (split_shift_by_rate tin oout b).standard
    ∧ isCent (split_shift_by_rate tin oout b).enhanced
    ∧ isCent (split_shift_by_rate tin oout b).supervisor := by
  unfold split_shift_by_rate
  cases oout with
  | none => exact ⟨isCent_zero, isCent_zero, isCent_zero⟩
  | some co =>
    dsimp only
    split_ifs <;>
      exact ⟨by first | exact isCent_round2 _ | exact isCent_zero,
        by first | exact isCent_round2 _ | exact isCent_zero,
        by first | exact isCent_round2 _ | exact isCent_zero⟩

theorem isCent_splitTotal (e : TimeEntry) : isCent (splitTotal (entrySplit e)) := by
  obtain ⟨h1, h2, h3⟩ := isCent_split_components e.clock_in e.clock_out
    (e.pay_rate_type == "Supervisor")
  exact isCent_add (isCent_add h1 h2) h3

theorem isCent_sumHours (l : List TimeEntry) :
    isCent (sumHours (calculate_staff_summary l)) := by
  unfold calculate_staff_summary
  rw [sumHours_foldl]
  rw [show sumHours [] = 0 from rfl, zero_add]
  apply isCent_sum
  intro q hq
  simp only [List.mem_map] at hq
  obtain ⟨e, _, rfl⟩ := hq
  exact isCent_splitTotal e

/-! ### Claim C10: permutation invariance and total coherence -/

/-- C10: the overall summary is invariant under any permutation of the
input shifts — grand total hours, shift count, unique-employee count and
every per-employee row agree — and its `total_hours` equals the exact sum
of the per-employee `total_hours` produced by the per-staff aggregation. -/
theorem summary_perm_invariant (l₁ l₂ : List TimeEntry) (hp : l₁.Perm l₂) :
    (calculate_summary l₁).total_hours = (calculate_summary l₂).total_hours
    ∧ (calculate_summary l₁).total_shifts
        = (calculate_summary l₂).total_shifts
    ∧ (calculate_summary l₁).unique_employees
        = (calculate_summary l₂).unique_employees
    ∧ (∀ k, lookupS (calculate_summary l₁).staff_summary k
        = lookupS (calculate_summary l₂).staff_summary k)
    ∧ (calculate_summary l₁).total_hours
        = ((calculate_staff_summary l₁).map (fun p => p.2.total_hours)).sum := by
  have hsum : sumHours (calculate_staff_summary l₁)
      = sumHours (calculate_staff_summary l₂) := by
    unfold calculate_staff_summary
    rw [sumHours_foldl, sumHours_foldl,
      (hp.map (fun e => splitTotal (entrySplit e))).sum_eq]
  have hshifts : sumShifts (calculate_staff_summary l₁)
      = sumShifts (calculate_staff_summary l₂) := by
    unfold calculate_staff_summary
    rw [sumShifts_foldl, sumShifts_foldl, hp.length_eq]
  have hmem : ∀ a, a ∈ keysOf (calculate_staff_summary l₁)
      ↔ a ∈ keysOf (calculate_staff_summary l₂) := by
    intro a
    unfold calculate_staff_summary
    rw [mem_keysOf_foldl, mem_keysOf_foldl,
      (hp.map TimeEntry.employee).mem_iff]
  have hnod₁ : (keysOf (calculate_staff_summary l₁)).Nodup :=
    nodup_keysOf_foldl l₁ [] (by simp [keysOf])
  have hnod₂ : (keysOf (calculate_staff_summary l₂)).Nodup :=
    nodup_keysOf_foldl l₂ [] (by simp [keysOf])
  have hlen : (calculate_staff_summary l₁).length
      = (calculate_staff_summary l₂).length := by
    have hfin : (keysOf (calculate_staff_summary l₁)).toFinset
        = (keysOf (calculate_staff_summary l₂)).toFinset := by
      apply Finset.ext
      intro a
      simp only [List.mem_toFinset]
      exact hmem a
    have e1 := List.toFinset_card_of_nodup hnod₁
    have e2 := List.toFinset_card_of_nodup hnod₂
    have l1 : (calculate_staff_summary l₁).length
        = (keysOf (calculate_staff_summary l₁)).length :=
      (List.length_map _ _).symm
    have l2 : (calculate_staff_summary l₂).length
        = (keysOf (calculate_staff_summary l₂)).length :=
      (List.length_map _ _).symm
    rw [l1, l2, ← e1, ← e2, hfin]
  have hlook : ∀ k, lookupS (calculate_staff_summary l₁) k
      = lookupS (calculate_staff_summary l₂) k := by
    intro k
    rw [lookupS_calc, lookupS_calc]
    have hperm : (entriesFor k l₁).Perm (entriesFor k l₂) :=
      List.Perm.filter (fun e : TimeEntry => e.employee == k) hp
    exact applyAgg_none_perm (hperm.map entrySplit)
  refine ⟨?_, ?_, hlen, hlook, ?_⟩
  · show round2 (sumHours (calculate_staff_summary l₁))
      = round2 (sumHours (calculate_staff_summary l₂))
    rw [hsum]
  · exact hshifts
  · show round2 (sumHours (calculate_staff_summary l₁))
      = sumHours (calculate_staff_summary l₁)
    exact round2_eq_self_of_isCent (isCent_sumHours l₁)

/-- A closed standard shift used to witness C10. -/
def entryA : TimeEntry := ⟨1, "alice", 28800, some 57600, "Standard", 0⟩

/-- A closed enhanced shift used to witness C10. -/
def entryB : TimeEntry := ⟨2, "bob", 64800, some 75600, "Enhanced", 0⟩

/-- Witness for C10 at a concrete two-entry batch and its swap. -/
theorem summary_perm_invariant_witness :
    (calculate_summary [entryA, entryB]).total_hours
      = (calculate_summary [entryB, entryA]).total_hours
    ∧ (calculate_summary [entryA, entryB]).total_hours
      = ((calculate_staff_summary [entryA, entryB]).map
          (fun p => p.2.total_hours)).sum :=
  ⟨(summary_perm_invariant [entryA, entryB] [entryB, entryA]
      (List.Perm.swap entryB entryA [])).1,
   (summary_perm_invariant [entryA, entryB] [entryB, entryA]
      (List.Perm.swap entryB entryA [])).2.2.2.2⟩
